import Mathlib

/-!
Verification of the snapshot-service repository (`cmd/main.go`) against its
natural-language specification.

Strings from the Go code are modelled as `List Char`; machine paths are lists
of path segments (`List (List Char)`); S3 and Docker side effects are modelled
by explicit outcome parameters and traces.  Every definition below is a direct
shallow embedding of a function in `cmd/main.go`, except the few whose doc
comment explicitly says they restate the specification's words (used only to
compare the code against the spec).
-/

/-! ## Basic string (char-list) operations used by the prune logic

`strings.HasSuffix`, `strings.TrimPrefix` and `strings.TrimSuffix` from the Go
standard library, on `List Char`. -/

/-- `strings.HasPrefix s p` : does `s` start with `p` (char-by-char). -/
def lstartsWith : List Char → List Char → Bool
  | _, [] => true
  | [], _ :: _ => false
  | a :: as, b :: bs => if a = b then lstartsWith as bs else false

/-- `strings.HasSuffix s t` : does `s` end with `t`. -/
def lendsWith (s t : List Char) : Bool :=
  lstartsWith s.reverse t.reverse

/-- `strings.TrimPrefix s p`: drop `p` from the front of `s` when present,
otherwise return `s` unchanged. -/
def trimPre (s p : List Char) : List Char :=
  if lstartsWith s p then s.drop p.length else s

/-- `strings.TrimSuffix s t`: drop `t` from the end of `s` when present,
otherwise return `s` unchanged. -/
def trimSfx (s t : List Char) : List Char :=
  if lendsWith s t then s.take (s.length - t.length) else s

theorem lstartsWith_iff (p : List Char) : ∀ s, lstartsWith s p = true ↔ p <+: s := by
  induction p with
  | nil => intro s; simp [lstartsWith]
  | cons b bs ih =>
    intro s
    cases s with
    | nil => simp [lstartsWith]
    | cons a as =>
      by_cases h : a = b
      · subst h
        simp [lstartsWith, ih as, List.cons_prefix_cons]
      · simp only [lstartsWith, if_neg h, List.cons_prefix_cons]
        constructor
        · intro hb; exact Bool.noConfusion hb
        · intro hb; exact absurd hb.1.symm h

theorem lendsWith_iff (s t : List Char) : lendsWith s t = true ↔ t <:+ s := by
  rw [lendsWith, lstartsWith_iff, List.reverse_prefix]

/-- A suffix shorter than the right part of an append is a suffix of the whole
iff it is a suffix of the right part. -/
theorem suffix_append_iff_of_le {t l₂ : List Char} (l₁ : List Char)
    (h : t.length ≤ l₂.length) : t <:+ l₁ ++ l₂ ↔ t <:+ l₂ := by
  constructor
  · rintro ⟨u, hu⟩
    rcases List.append_eq_append_iff.mp hu with ⟨a, _, ha2⟩ | ⟨c, _, hc2⟩
    · have hlen : t.length = a.length + l₂.length := by
        rw [ha2, List.length_append]
      have ha0 : a = [] := by
        have : a.length = 0 := by omega
        exact List.length_eq_zero.mp this
      subst ha0
      simp at ha2
      exact ha2 ▸ List.suffix_refl _
    · exact ⟨c, hc2.symm⟩
  · rintro ⟨u, hu⟩
    exact ⟨l₁ ++ u, by rw [List.append_assoc, hu]⟩

theorem lendsWith_append {t l₂ : List Char} (l₁ : List Char)
    (h : t.length ≤ l₂.length) : lendsWith (l₁ ++ l₂) t = lendsWith l₂ t := by
  rcases hb : lendsWith l₂ t with _ | _
  · rcases hc : lendsWith (l₁ ++ l₂) t with _ | _
    · rfl
    · exfalso
      have := (lendsWith_iff _ _).mp hc
      have := (suffix_append_iff_of_le l₁ h).mp this
      rw [(lendsWith_iff _ _).mpr this] at hb
      exact Bool.noConfusion hb
  · exact (lendsWith_iff _ _).mpr ((suffix_append_iff_of_le l₁ h).mpr
      ((lendsWith_iff _ _).mp hb))

/-! ## Timestamp parsing

`time.Parse("20060102-150405", s)` from the Go standard library, specialised
to the one fixed layout the service uses: 8 digits (date), a dash, 6 digits
(time of day), with the usual field-range validation.  The parsed time is
encoded as the natural number `yyyymmddhhmmss`, which orders exactly like
`time.Time.Before` on the parsed values. -/

/-- Digits of a char list as a natural number (the list is known to consist of
digit characters when this is used). -/
def digitsToNat (l : List Char) : Nat :=
  l.foldl (fun a c => a * 10 + (c.toNat - 48)) 0

/-- `isLeap` from the Go `time` package. -/
def isLeapYear (y : Nat) : Bool :=
  y % 4 == 0 && (y % 100 != 0 || y % 400 == 0)

/-- `daysIn(month, year)` from the Go `time` package: the number of days of
the month, February depending on the leap year. -/
def daysIn (mo y : Nat) : Nat :=
  if mo = 2 then (if isLeapYear y then 29 else 28)
  else if mo = 4 ∨ mo = 6 ∨ mo = 9 ∨ mo = 11 then 30
  else 31

/-- Model of `time.Parse("20060102-150405", s)` as Go 1.20 validates it:
`some` encoded timestamp on the valid layout, `none` (an error) otherwise;
the day of month must not exceed `daysIn(month, year)` ("day out of range"),
and the time-of-day fields carry their usual bounds. -/
def parseTs (s : List Char) : Option Nat :=
  let date := s.take 8
  let sep := (s.drop 8).take 1
  let tod := s.drop 9
  if s.length = 15 ∧ date.all Char.isDigit ∧ sep = ['-'] ∧ tod.all Char.isDigit then
    let y := digitsToNat (date.take 4)
    let mo := digitsToNat ((date.drop 4).take 2)
    let d := digitsToNat (date.drop 6)
    let h := digitsToNat (tod.take 2)
    let mi := digitsToNat ((tod.drop 2).take 2)
    let se := digitsToNat (tod.drop 4)
    if 1 ≤ mo ∧ mo ≤ 12 ∧ 1 ≤ d ∧ d ≤ daysIn mo y ∧ h ≤ 23 ∧ mi ≤ 59 ∧ se ≤ 59 then
      some (((((y * 100 + mo) * 100 + d) * 100 + h) * 100 + mi) * 100 + se)
    else none
  else none

/-! ## Retention pruning (`pruneOldSnapshots`, main.go lines 144-232)

The S3 listing is modelled as the list of object keys under the directory
prefix, in listing order.  `DeleteObject` calls are modelled as successful
(the claims under verification do not involve delete failures); the model
returns the keys deleted, in the order the deletions are issued, together
with an error flag for the parse-failure path. -/

/-- `fileNameSuffixes[0]`, the archive object class. -/
def tarSfx : List Char := ".tar.gz".data

/-- `fileNameSuffixes[1]`, the metadata object class. -/
def metaSfx : List Char := "-metadata.json".data

/-- The fixed latest-metadata object name (`metaDataLatest` in
`createSnapShotMetadata`). -/
def latestName : List Char := "snapshot-latest.json".data

/-- The per-key body of the classification loop (main.go lines 175-193):
try each suffix in order, `break` after the first match; on a match, parse
the key with prefix and suffix trimmed, propagating a parse failure as an
error.  Result: `none` when no suffix matches, otherwise the class
(`true` = `.tar.gz`, `false` = `-metadata.json`) and the parsed timestamp. -/
def classifyKey (pre k : List Char) : Except Unit (Option (Bool × Nat)) :=
  if lendsWith k tarSfx then
    match parseTs (trimSfx (trimPre k pre) tarSfx) with
    | some ts => .ok (some (true, ts))
    | none => .error ()
  else if lendsWith k metaSfx then
    match parseTs (trimSfx (trimPre k pre) metaSfx) with
    | some ts => .ok (some (false, ts))
    | none => .error ()
  else .ok none

/-- The classification loop over the listing: builds `tarFiles` and
`jsonFiles` in listing order; the first parse failure aborts the whole
function before any deletion is issued. -/
def classifyKeys (pre : List Char) :
    List (List Char) → Except Unit (List (List Char × Nat) × List (List Char × Nat))
  | [] => .ok ([], [])
  | k :: ks =>
    match classifyKey pre k with
    | .error () => .error ()
    | .ok none => classifyKeys pre ks
    | .ok (some (isTar, ts)) =>
      match classifyKeys pre ks with
      | .error () => .error ()
      | .ok (tars, jsons) =>
        if isTar then .ok ((k, ts) :: tars, jsons) else .ok (tars, (k, ts) :: jsons)

/-- Ascending timestamp order used by both `sort.Slice` calls
(main.go lines 196-201). -/
def tsLe (a b : List Char × Nat) : Prop := a.2 ≤ b.2

instance : DecidableRel tsLe := fun a b => Nat.decLe a.2 b.2

/-- One class's deletion pass (main.go lines 204-229): sort ascending by
timestamp, and when more than `keep` files exist delete the oldest
`length - keep` of them, oldest first. -/
def pruneClass (keep : Nat) (es : List (List Char × Nat)) : List (List Char × Nat) :=
  if keep < es.length then (List.insertionSort tsLe es).take (es.length - keep) else []

/-- `pruneOldSnapshots`, given the listing under the directory prefix.
Returns the keys deleted in issue order, and `some ()` when the function
returned a (parse) error — in which case no deletion was issued, because the
classification loop runs entirely before the deletion loops. -/
def pruneOldSnapshotsModel (pre : List Char) (keep : Nat) (keys : List (List Char)) :
    List (List Char) × Option Unit :=
  match classifyKeys pre keys with
  | .error () => ([], some ())
  | .ok (tars, jsons) =>
    ((pruneClass keep tars).map Prod.fst ++ (pruneClass keep jsons).map Prod.fst, none)

/-! ### Lemmas about the classification loop -/

theorem classifyKey_error_of {pre k : List Char}
    (h : (lendsWith k tarSfx = true ∧ parseTs (trimSfx (trimPre k pre) tarSfx) = none) ∨
      (lendsWith k tarSfx = false ∧ lendsWith k metaSfx = true ∧
        parseTs (trimSfx (trimPre k pre) metaSfx) = none)) :
    classifyKey pre k = .error () := by
  rcases h with ⟨h1, h2⟩ | ⟨h1, h2, h3⟩
  · simp [classifyKey, h1, h2]
  · simp [classifyKey, h1, h2, h3]

theorem classifyKeys_error {pre : List Char} {keys : List (List Char)}
    (h : ∃ k ∈ keys, classifyKey pre k = .error ()) :
    classifyKeys pre keys = .error () := by
  induction keys with
  | nil => rcases h with ⟨k, hk, _⟩; cases hk
  | cons k' ks ih =>
    rcases h with ⟨k, hk, hke⟩
    rcases List.mem_cons.mp hk with rfl | hmem
    · simp [classifyKeys, hke]
    · cases hck : classifyKey pre k' with
      | error e => cases e; simp [classifyKeys, hck]
      | ok v =>
        have hrec := ih ⟨k, hmem, hke⟩
        match v with
        | none => simp [classifyKeys, hck, hrec]
        | some (isTar, ts) => simp [classifyKeys, hck, hrec]

theorem classifyKey_tar {pre k : List Char} {ts : Nat}
    (h : classifyKey pre k = .ok (some (true, ts))) : lendsWith k tarSfx = true := by
  by_cases h1 : lendsWith k tarSfx = true
  · exact h1
  · exfalso
    rw [classifyKey, if_neg h1] at h
    by_cases h2 : lendsWith k metaSfx = true
    · rw [if_pos h2] at h
      cases hp : parseTs (trimSfx (trimPre k pre) metaSfx) <;> rw [hp] at h <;> simp at h
    · rw [if_neg h2] at h; simp at h

theorem classifyKey_meta {pre k : List Char} {ts : Nat}
    (h : classifyKey pre k = .ok (some (false, ts))) : lendsWith k metaSfx = true := by
  by_cases h1 : lendsWith k tarSfx = true
  · exfalso
    rw [classifyKey, if_pos h1] at h
    cases hp : parseTs (trimSfx (trimPre k pre) tarSfx) <;> rw [hp] at h <;> simp at h
  · by_cases h2 : lendsWith k metaSfx = true
    · exact h2
    · exfalso
      rw [classifyKey, if_neg h1, if_neg h2] at h
      simp at h

theorem classifyKeys_suffix {pre : List Char} {keys : List (List Char)}
    {tars jsons : List (List Char × Nat)}
    (h : classifyKeys pre keys = .ok (tars, jsons)) :
    (∀ e ∈ tars, lendsWith e.1 tarSfx = true) ∧
      (∀ e ∈ jsons, lendsWith e.1 metaSfx = true) := by
  induction keys generalizing tars jsons with
  | nil =>
    simp only [classifyKeys, Except.ok.injEq, Prod.mk.injEq] at h
    rcases h with ⟨rfl, rfl⟩
    exact ⟨by simp, by simp⟩
  | cons k ks ih =>
    rw [classifyKeys] at h
    cases hck : classifyKey pre k with
    | error e => cases e; rw [hck] at h; exact absurd h (by simp)
    | ok v =>
      rw [hck] at h
      match v with
      | none => exact ih h
      | some (isTar, ts) =>
        cases hrec : classifyKeys pre ks with
        | error e => cases e; rw [hrec] at h; exact absurd h (by simp)
        | ok p =>
          obtain ⟨tars', jsons'⟩ := p
          rw [hrec] at h
          have ihp := ih hrec
          cases isTar with
          | true =>
            simp only [if_pos] at h
            simp only [Except.ok.injEq, Prod.mk.injEq] at h
            rcases h with ⟨rfl, rfl⟩
            refine ⟨?_, ihp.2⟩
            intro e he
            rcases List.mem_cons.mp he with rfl | he'
            · exact classifyKey_tar hck
            · exact ihp.1 e he'
          | false =>
            simp only [Bool.false_eq_true, if_false, Except.ok.injEq, Prod.mk.injEq] at h
            rcases h with ⟨rfl, rfl⟩
            refine ⟨ihp.1, ?_⟩
            intro e he
            rcases List.mem_cons.mp he with rfl | he'
            · exact classifyKey_meta hck
            · exact ihp.2 e he'

theorem pruneClass_eq_take (keep : Nat) (es : List (List Char × Nat)) :
    pruneClass keep es = (List.insertionSort tsLe es).take (es.length - keep) := by
  rw [pruneClass]
  split
  · rfl
  · have h0 : es.length - keep = 0 := by omega
    rw [h0, List.take_zero]

theorem pruneClass_subset {keep : Nat} {es : List (List Char × Nat)}
    {x : List Char × Nat} (h : x ∈ pruneClass keep es) : x ∈ es := by
  rw [pruneClass_eq_take] at h
  exact (List.perm_insertionSort tsLe es).mem_iff.mp (List.take_subset _ _ h)

/-- Claim C4: a listing containing a key that matches a class suffix
(`.tar.gz` checked first, then `-metadata.json`) but whose timestamp segment
does not parse makes `pruneOldSnapshots` return an error with no deletion
issued at all. -/
theorem prune_parse_failure_aborts (pre : List Char) (keep : Nat)
    (keys : List (List Char))
    (h : ∃ k ∈ keys,
      (lendsWith k tarSfx = true ∧ parseTs (trimSfx (trimPre k pre) tarSfx) = none) ∨
      (lendsWith k tarSfx = false ∧ lendsWith k metaSfx = true ∧
        parseTs (trimSfx (trimPre k pre) metaSfx) = none)) :
    pruneOldSnapshotsModel pre keep keys = ([], some ()) := by
  rcases h with ⟨k, hk, hke⟩
  have herr : classifyKeys pre keys = .error () :=
    classifyKeys_error ⟨k, hk, classifyKey_error_of hke⟩
  rw [pruneOldSnapshotsModel, herr]

/-- Claim C4 witness: a malformed archive key aborts pruning with nothing
deleted — both for a non-timestamp segment and for a calendar-invalid
timestamp (February 30, "day out of range" in Go). -/
theorem prune_parse_failure_aborts_witness :
    pruneOldSnapshotsModel "nimiq/testnet/".data 5
      [("nimiq/testnet/".data ++ "foo.tar.gz".data)] = ([], some ()) ∧
    pruneOldSnapshotsModel "p/n/".data 5
      ["p/n/20230230-000000.tar.gz".data] = ([], some ()) :=
  ⟨prune_parse_failure_aborts _ _ _
    ⟨"nimiq/testnet/".data ++ "foo.tar.gz".data, by decide, Or.inl (by decide)⟩,
   prune_parse_failure_aborts _ _ _
    ⟨"p/n/20230230-000000.tar.gz".data, by decide, Or.inl (by decide)⟩⟩

/-- Claim C10: pruning only ever deletes keys carrying one of the two class
suffixes, so the fixed `snapshot-latest.json` object under the prefix is
never deleted. -/
theorem prune_never_deletes_latest (pre : List Char) (keep : Nat)
    (keys : List (List Char)) :
    (∀ k ∈ (pruneOldSnapshotsModel pre keep keys).1,
      lendsWith k tarSfx = true ∨ lendsWith k metaSfx = true) ∧
    pre ++ latestName ∉ (pruneOldSnapshotsModel pre keep keys).1 := by
  have hsfx : ∀ k ∈ (pruneOldSnapshotsModel pre keep keys).1,
      lendsWith k tarSfx = true ∨ lendsWith k metaSfx = true := by
    intro k hkdel
    cases hcl : classifyKeys pre keys with
    | error e =>
      cases e
      rw [pruneOldSnapshotsModel, hcl] at hkdel
      exact absurd hkdel (by simp)
    | ok p =>
      obtain ⟨tars, jsons⟩ := p
      rw [pruneOldSnapshotsModel, hcl] at hkdel
      have hs := classifyKeys_suffix hcl
      rcases List.mem_append.mp hkdel with hmem | hmem
      · rcases List.mem_map.mp hmem with ⟨e, he, rfl⟩
        exact Or.inl (hs.1 e (pruneClass_subset he))
      · rcases List.mem_map.mp hmem with ⟨e, he, rfl⟩
        exact Or.inr (hs.2 e (pruneClass_subset he))
  refine ⟨hsfx, fun hmem => ?_⟩
  have h1 : lendsWith (pre ++ latestName) tarSfx = lendsWith latestName tarSfx :=
    lendsWith_append pre (by decide)
  have h2 : lendsWith (pre ++ latestName) metaSfx = lendsWith latestName metaSfx :=
    lendsWith_append pre (by decide)
  rcases hsfx _ hmem with hev | hev
  · rw [h1] at hev; exact absurd hev (by decide)
  · rw [h2] at hev; exact absurd hev (by decide)

/-- Claim C10 witness: with a mixed concrete listing the latest-metadata key
survives pruning even with `keep = 0`. -/
theorem prune_never_deletes_latest_witness :
    "p/n/".data ++ latestName ∉
      (pruneOldSnapshotsModel "p/n/".data 0
        [("p/n/".data ++ "20230101-000000.tar.gz".data),
         ("p/n/".data ++ latestName),
         ("p/n/".data ++ "20230101-000000-metadata.json".data)]).1 :=
  (prune_never_deletes_latest "p/n/".data 0 _).2

instance : IsTotal (List Char × Nat) tsLe := ⟨fun a b => Nat.le_total a.2 b.2⟩

instance : IsTrans (List Char × Nat) tsLe := ⟨fun _ _ _ => Nat.le_trans⟩

/-- What one class's deletion pass does, stated as the claim states it: the
deleted entries are the `count - keep` first entries of the ascending sort
(none at all when `count ≤ keep`), listed oldest first; the kept entries are
the `keep` newest; every deleted timestamp is strictly below every kept
timestamp; and the deleted and kept entries together are exactly the class. -/
def classPruneSpec (keep : Nat) (es : List (List Char × Nat)) : Prop :=
  ((List.insertionSort tsLe es).take (es.length - keep)).length = es.length - keep ∧
  ((List.insertionSort tsLe es).drop (es.length - keep)).length = min keep es.length ∧
  (es.length ≤ keep → (List.insertionSort tsLe es).take (es.length - keep) = []) ∧
  List.Pairwise tsLe ((List.insertionSort tsLe es).take (es.length - keep)) ∧
  (∀ x ∈ (List.insertionSort tsLe es).take (es.length - keep),
    ∀ y ∈ (List.insertionSort tsLe es).drop (es.length - keep), x.2 < y.2) ∧
  ((List.insertionSort tsLe es).take (es.length - keep) ++
    (List.insertionSort tsLe es).drop (es.length - keep)).Perm es

theorem classPruneSpec_of_nodup (keep : Nat) (es : List (List Char × Nat))
    (hnd : (es.map Prod.snd).Nodup) : classPruneSpec keep es := by
  have hperm := List.perm_insertionSort tsLe es
  have hlen : (List.insertionSort tsLe es).length = es.length := hperm.length_eq
  have hsorted : List.Pairwise tsLe (List.insertionSort tsLe es) :=
    List.sorted_insertionSort tsLe es
  have htd : (List.insertionSort tsLe es).take (es.length - keep) ++
      (List.insertionSort tsLe es).drop (es.length - keep) =
      List.insertionSort tsLe es := List.take_append_drop _ _
  refine ⟨?_, ?_, ?_, ?_, ?_, ?_⟩
  · rw [List.length_take, hlen]; omega
  · rw [List.length_drop, hlen]; omega
  · intro hle
    have h0 : es.length - keep = 0 := by omega
    rw [h0, List.take_zero]
  · exact hsorted.sublist (List.take_sublist _ _)
  · intro x hx y hy
    have hcross : tsLe x y := by
      have hp : List.Pairwise tsLe
          ((List.insertionSort tsLe es).take (es.length - keep) ++
            (List.insertionSort tsLe es).drop (es.length - keep)) := by
        rw [htd]; exact hsorted
      exact ((List.pairwise_append.mp hp).2.2) x hx y hy
    have hnds : ((List.insertionSort tsLe es).map Prod.snd).Nodup :=
      (hperm.map Prod.snd).nodup_iff.mpr hnd
    have hne : x.2 ≠ y.2 := by
      intro hxy
      have hsplit : ((List.insertionSort tsLe es).map Prod.snd) =
          ((List.insertionSort tsLe es).take (es.length - keep)).map Prod.snd ++
          ((List.insertionSort tsLe es).drop (es.length - keep)).map Prod.snd := by
        rw [← List.map_append, htd]
      rw [hsplit] at hnds
      have hdisj := List.disjoint_of_nodup_append hnds
      exact hdisj (List.mem_map_of_mem Prod.snd hx)
        (hxy ▸ List.mem_map_of_mem Prod.snd hy)
    exact Nat.lt_of_le_of_ne hcross hne
  · rw [htd]; exact hperm

/-- Claim C3: for every listing and both object classes — archive and
metadata objects, pruned independently by the two identical deletion loops
(main.go lines 204-215 and 218-229) — whose keys carry parseable and
pairwise distinct embedded timestamps: the deleted keys are exactly the
`count - keep` oldest of each class, deleted oldest first (archive class
first, as in the code); a class with at most `keep` objects loses nothing;
each class retains its `keep` newest, every deleted timestamp strictly below
every kept one. -/
theorem prune_deletes_oldest (pre : List Char) (keep : Nat) (keys : List (List Char))
    (tars jsons : List (List Char × Nat))
    (hcl : classifyKeys pre keys = .ok (tars, jsons))
    (hndT : (tars.map Prod.snd).Nodup) (hndJ : (jsons.map Prod.snd).Nodup) :
    pruneOldSnapshotsModel pre keep keys =
      (((List.insertionSort tsLe tars).take (tars.length - keep)).map Prod.fst ++
        ((List.insertionSort tsLe jsons).take (jsons.length - keep)).map Prod.fst,
        none) ∧
    classPruneSpec keep tars ∧ classPruneSpec keep jsons := by
  refine ⟨?_, classPruneSpec_of_nodup keep tars hndT,
    classPruneSpec_of_nodup keep jsons hndJ⟩
  rw [pruneOldSnapshotsModel, hcl]
  dsimp only
  rw [pruneClass_eq_take, pruneClass_eq_take]

/-- Claim C3 witness: the specification's example in both classes — 8
archive objects with strictly increasing timestamps and `keep = 5` lose
exactly the 3 oldest, oldest first; 3 archive objects lose nothing; and the
metadata class behaves identically under its own loop. -/
theorem prune_deletes_oldest_witness :
    pruneOldSnapshotsModel "p/n/".data 5
      ["p/n/20230101-000000.tar.gz".data, "p/n/20230102-000000.tar.gz".data,
       "p/n/20230103-000000.tar.gz".data, "p/n/20230104-000000.tar.gz".data,
       "p/n/20230105-000000.tar.gz".data, "p/n/20230106-000000.tar.gz".data,
       "p/n/20230107-000000.tar.gz".data, "p/n/20230108-000000.tar.gz".data] =
      (["p/n/20230101-000000.tar.gz".data, "p/n/20230102-000000.tar.gz".data,
        "p/n/20230103-000000.tar.gz".data], none) ∧
    pruneOldSnapshotsModel "p/n/".data 5
      ["p/n/20230101-000000.tar.gz".data, "p/n/20230102-000000.tar.gz".data,
       "p/n/20230103-000000.tar.gz".data] = ([], none) ∧
    pruneOldSnapshotsModel "p/n/".data 5
      ["p/n/20230101-000000-metadata.json".data, "p/n/20230102-000000-metadata.json".data,
       "p/n/20230103-000000-metadata.json".data, "p/n/20230104-000000-metadata.json".data,
       "p/n/20230105-000000-metadata.json".data, "p/n/20230106-000000-metadata.json".data,
       "p/n/20230107-000000-metadata.json".data, "p/n/20230108-000000-metadata.json".data] =
      (["p/n/20230101-000000-metadata.json".data, "p/n/20230102-000000-metadata.json".data,
        "p/n/20230103-000000-metadata.json".data], none) := by
  refine ⟨?_, ?_, ?_⟩
  · exact ((prune_deletes_oldest "p/n/".data 5 _
      [("p/n/20230101-000000.tar.gz".data, 20230101000000),
       ("p/n/20230102-000000.tar.gz".data, 20230102000000),
       ("p/n/20230103-000000.tar.gz".data, 20230103000000),
       ("p/n/20230104-000000.tar.gz".data, 20230104000000),
       ("p/n/20230105-000000.tar.gz".data, 20230105000000),
       ("p/n/20230106-000000.tar.gz".data, 20230106000000),
       ("p/n/20230107-000000.tar.gz".data, 20230107000000),
       ("p/n/20230108-000000.tar.gz".data, 20230108000000)] []
      (by rfl) (by decide) (by decide)).1).trans (by rfl)
  · exact ((prune_deletes_oldest "p/n/".data 5 _
      [("p/n/20230101-000000.tar.gz".data, 20230101000000),
       ("p/n/20230102-000000.tar.gz".data, 20230102000000),
       ("p/n/20230103-000000.tar.gz".data, 20230103000000)] []
      (by rfl) (by decide) (by decide)).1).trans (by rfl)
  · exact ((prune_deletes_oldest "p/n/".data 5 _ []
      [("p/n/20230101-000000-metadata.json".data, 20230101000000),
       ("p/n/20230102-000000-metadata.json".data, 20230102000000),
       ("p/n/20230103-000000-metadata.json".data, 20230103000000),
       ("p/n/20230104-000000-metadata.json".data, 20230104000000),
       ("p/n/20230105-000000-metadata.json".data, 20230105000000),
       ("p/n/20230106-000000-metadata.json".data, 20230106000000),
       ("p/n/20230107-000000-metadata.json".data, 20230107000000),
       ("p/n/20230108-000000-metadata.json".data, 20230108000000)]
      (by rfl) (by decide) (by decide)).1).trans (by rfl)

/-! ## Filesystem model for the walk-based functions

A directory tree as `filepath.Walk` sees it: regular files with contents,
directories with children listed in the lexical order the walk visits them.
File sizes are the content lengths (`info.Size()` of a regular file).
A walk over the tree yields every entry, each with its full path (as a list
of path segments rooted at the walk argument), its directory flag and, for a
file, its content.  `filepath.Walk` visits a directory itself before its
children and never skips the children of an entry the callback returns `nil`
for — in particular an ignored *directory* name does not prune its subtree,
only drops the directory entry itself, exactly as in the Go callbacks. -/

inductive FsEntry where
  | file (name : List Char) (content : List Nat)
  | dir (name : List Char) (children : List FsEntry)

/-- `filepath.Base` of an entry's own name. -/
def entryName : FsEntry → List Char
  | .file n _ => n
  | .dir n _ => n

/-- One entry as seen by a `filepath.Walk` callback: full path (segments from
the walk root), `info.IsDir()`, and the file content. -/
structure WalkItem where
  path : List (List Char)
  isDir : Bool
  content : List Nat
deriving DecidableEq

/-- `filepath.Base` of a walk path: its last segment. -/
def lastSeg (p : List (List Char)) : List Char :=
  p.reverse.headD []

mutual

/-- The visit sequence of `filepath.Walk` started below `base` at one entry. -/
def walkT (base : List (List Char)) : FsEntry → List WalkItem
  | .file n c => [⟨base ++ [n], false, c⟩]
  | .dir n cs => ⟨base ++ [n], true, []⟩ :: walkL (base ++ [n]) cs

/-- The visit sequence of the children of a directory. -/
def walkL (base : List (List Char)) : List FsEntry → List WalkItem
  | [] => []
  | t :: ts => walkT base t ++ walkL base ts

end

/-- The shared skip test of the archive walk (main.go lines 390-400) and the
fingerprint walk (main.go lines 497-505): keep an entry iff its base name is
not in `config.IgnoreFiles` and it is not a directory. -/
def keepItem (ig : List (List Char)) (it : WalkItem) : Bool :=
  !(decide (lastSeg it.path ∈ ig)) && !it.isDir

/-- The archive member names produced by the walk goroutine of
`createTarGzToS3` (main.go lines 385-428): one member per kept entry, named
by its path relative to the walked folder (`filepath.Rel(folderPath, path)`,
set as `header.Name`), in visit order. -/
def archiveMembers (ig : List (List Char)) (root : FsEntry) : List (List (List Char)) :=
  ((walkT [] root).filter (keepItem ig)).map (fun it => it.path.drop 1)

mutual

/-- Restates the specification's words, for comparison with the code: the
root-relative paths of the non-ignored regular files under one entry. -/
def relFilesT (ig : List Char → Prop) [DecidablePred ig] : FsEntry → List (List (List Char))
  | .file n _ => if ig n then [] else [[n]]
  | .dir n cs => (relFilesL ig cs).map (fun p => n :: p)

/-- Root-relative paths of the non-ignored regular files under a child list. -/
def relFilesL (ig : List Char → Prop) [DecidablePred ig] : List FsEntry → List (List (List Char))
  | [] => []
  | t :: ts => relFilesT ig t ++ relFilesL ig ts

end

theorem lastSeg_append (l : List (List Char)) (n : List Char) :
    lastSeg (l ++ [n]) = n := by
  simp [lastSeg, List.reverse_append]

mutual

theorem walkT_paths (ig : List (List Char)) :
    ∀ (t : FsEntry) (base : List (List Char)),
      ((walkT base t).filter (keepItem ig)).map (fun it => it.path) =
        (relFilesT (· ∈ ig) t).map (fun p => base ++ p)
  | .file n c, base => by
    by_cases hig : n ∈ ig
    · simp [walkT, relFilesT, keepItem, lastSeg_append, hig]
    · simp [walkT, relFilesT, keepItem, lastSeg_append, hig]
  | .dir n cs, base => by
    have h := walkL_paths ig cs (base ++ [n])
    have hkeep : keepItem ig ⟨base ++ [n], true, []⟩ = false := by
      simp [keepItem]
    simp only [walkT, relFilesT, List.filter_cons, hkeep]
    simp only [Bool.false_eq_true, if_false, h, List.map_map]
    apply List.map_congr_left
    intro p _
    simp [List.append_assoc]

theorem walkL_paths (ig : List (List Char)) :
    ∀ (ts : List FsEntry) (base : List (List Char)),
      ((walkL base ts).filter (keepItem ig)).map (fun it => it.path) =
        (relFilesL (· ∈ ig) ts).map (fun p => base ++ p)
  | [], _ => by simp [walkL, relFilesL]
  | t :: ts, base => by
    simp only [walkL, relFilesL, List.filter_append, List.map_append]
    rw [walkT_paths ig t base, walkL_paths ig ts base]

end

/-- The archive member list is exactly the spec-side list of root-relative
paths of non-ignored regular files. -/
theorem archiveMembers_eq (ig : List (List Char)) (rn : List Char)
    (cs : List FsEntry) :
    archiveMembers ig (.dir rn cs) = relFilesL (· ∈ ig) cs := by
  have h := walkL_paths ig cs [rn]
  have hkeep : keepItem ig ⟨[rn], true, []⟩ = false := by
    simp [keepItem]
  rw [archiveMembers]
  have hcomp : (fun it : WalkItem => it.path.drop 1) =
      (fun p : List (List Char) => p.drop 1) ∘ (fun it : WalkItem => it.path) := rfl
  rw [hcomp, ← List.map_map]
  simp only [walkT, List.nil_append, List.filter_cons, hkeep, Bool.false_eq_true, if_false]
  rw [h, List.map_map]
  have : ((fun p : List (List Char) => p.drop 1) ∘ fun p => [rn] ++ p) =
      fun p : List (List Char) => p := by
    funext p
    simp
  rw [this]
  exact List.map_id _

/-- Sibling names are pairwise distinct (a real directory guarantees this). -/
def distinctNames : List FsEntry → Bool
  | [] => true
  | t :: ts => !(decide (entryName t ∈ ts.map entryName)) && distinctNames ts

mutual

/-- Well-formedness of a tree: in every directory the children carry pairwise
distinct names. -/
def wfT : FsEntry → Bool
  | .file _ _ => true
  | .dir _ cs => distinctNames cs && wfAll cs

/-- Well-formedness of every entry of a list. -/
def wfAll : List FsEntry → Bool
  | [] => true
  | t :: ts => wfT t && wfAll ts

end

theorem distinctNames_iff (ts : List FsEntry) :
    distinctNames ts = true ↔ (ts.map entryName).Nodup := by
  induction ts with
  | nil => simp [distinctNames]
  | cons t ts ih =>
    simp [distinctNames, ih, List.nodup_cons]

theorem relFilesT_shape (ig : List Char → Prop) [DecidablePred ig] (t : FsEntry)
    {p : List (List Char)} (h : p ∈ relFilesT ig t) :
    ∃ q, p = entryName t :: q := by
  cases t with
  | file n c =>
    rw [relFilesT] at h
    split at h
    · cases h
    · rcases List.mem_singleton.mp h with rfl
      exact ⟨[], rfl⟩
  | dir n cs =>
    rw [relFilesT] at h
    rcases List.mem_map.mp h with ⟨q, _, rfl⟩
    exact ⟨q, rfl⟩

theorem relFilesL_shape (ig : List Char → Prop) [DecidablePred ig]
    (ts : List FsEntry) {p : List (List Char)} (h : p ∈ relFilesL ig ts) :
    ∃ t' ∈ ts, ∃ q, p = entryName t' :: q := by
  induction ts with
  | nil => cases h
  | cons t ts ih =>
    rw [relFilesL] at h
    rcases List.mem_append.mp h with h1 | h1
    · rcases relFilesT_shape ig t h1 with ⟨q, rfl⟩
      exact ⟨t, List.mem_cons_self t ts, q, rfl⟩
    · rcases ih h1 with ⟨t', ht', q, rfl⟩
      exact ⟨t', List.mem_cons_of_mem t ht', q, rfl⟩

mutual

theorem relFilesT_nodup (ig : List Char → Prop) [DecidablePred ig] :
    ∀ (t : FsEntry), wfT t = true → (relFilesT ig t).Nodup
  | .file n c, _ => by
    rw [relFilesT]
    split
    · exact List.nodup_nil
    · simp
  | .dir n cs, h => by
    rw [relFilesT]
    have h2 : distinctNames cs = true ∧ wfAll cs = true := by
      rw [wfT] at h
      exact ⟨by simp at h; exact h.1, by simp at h; exact h.2⟩
    exact ((relFilesL_nodup ig cs ((distinctNames_iff cs).mp h2.1)
      h2.2)).map List.cons_injective

theorem relFilesL_nodup (ig : List Char → Prop) [DecidablePred ig] :
    ∀ (ts : List FsEntry), (ts.map entryName).Nodup → wfAll ts = true →
      (relFilesL ig ts).Nodup
  | [], _, _ => List.nodup_nil
  | t :: ts, hd, ha => by
    rw [relFilesL]
    have hsplit : wfT t = true ∧ wfAll ts = true := by
      rw [wfAll] at ha
      exact ⟨by simp at ha; exact ha.1, by simp at ha; exact ha.2⟩
    obtain ⟨hat, hats⟩ := hsplit
    have hd2 := hd
    rw [List.map_cons, List.nodup_cons] at hd2
    obtain ⟨hni, hdts⟩ := hd2
    rw [List.nodup_append]
    refine ⟨relFilesT_nodup ig t hat, relFilesL_nodup ig ts hdts hats, ?_⟩
    intro p hp1 hp2
    rcases relFilesT_shape ig t hp1 with ⟨q, rfl⟩
    rcases relFilesL_shape ig ts hp2 with ⟨t', ht', q', heq⟩
    have : entryName t = entryName t' := (List.cons.injEq _ _ _ _).mp heq |>.1
    exact hni (this ▸ List.mem_map_of_mem entryName ht')

end

/-- `filepath.Join`-style rendering of a segment path as the slash-separated
string the Go code manipulates. -/
def renderPath : List (List Char) → List Char
  | [] => []
  | [s] => s
  | s :: rest => s ++ '/' :: renderPath rest

/-- A rendered path is relative (not absolute) iff it is nonempty and does
not start with `'/'`. -/
def headNotSlash : List Char → Bool
  | [] => false
  | c :: _ => decide (c ≠ '/')

theorem renderPath_cons (s : List Char) (rest : List (List Char)) :
    ∃ r, renderPath (s :: rest) = s ++ r := by
  cases rest with
  | nil => exact ⟨[], by simp [renderPath]⟩
  | cons b bs => exact ⟨'/' :: renderPath (b :: bs), rfl⟩

theorem headNotSlash_append {s : List Char} (r : List Char)
    (h : headNotSlash s = true) : headNotSlash (s ++ r) = true := by
  cases s with
  | nil => exact absurd h (by simp [headNotSlash])
  | cons c cs => simpa [headNotSlash] using h

/-- Claim C7: for every directory tree and ignore set, the archive member
names are exactly the root-relative paths of the non-ignored regular files
under the tree — no duplicates, no directory entries (the spec-side list
`relFilesL` contains only file paths by construction), and no absolute
member names. -/
theorem archive_members_correct (ig : List (List Char)) (rn : List Char)
    (cs : List FsEntry) (hwf : wfT (.dir rn cs) = true)
    (hnames : ∀ t ∈ cs, headNotSlash (entryName t) = true) :
    archiveMembers ig (.dir rn cs) = relFilesL (· ∈ ig) cs ∧
    (archiveMembers ig (.dir rn cs)).Nodup ∧
    ∀ p ∈ archiveMembers ig (.dir rn cs), headNotSlash (renderPath p) = true := by
  have heq := archiveMembers_eq ig rn cs
  have hsplit : distinctNames cs = true ∧ wfAll cs = true := by
    rw [wfT] at hwf
    exact ⟨by simp at hwf; exact hwf.1, by simp at hwf; exact hwf.2⟩
  refine ⟨heq, ?_, ?_⟩
  · rw [heq]
    exact relFilesL_nodup _ cs ((distinctNames_iff cs).mp hsplit.1) hsplit.2
  · intro p hp
    rw [heq] at hp
    rcases relFilesL_shape _ cs hp with ⟨t', ht', q, rfl⟩
    rcases renderPath_cons (entryName t') q with ⟨r, hr⟩
    rw [hr]
    exact headNotSlash_append r (hnames t' ht')

/-- Claim C7 witness: a concrete tree with a nested directory and two ignored
files; the members are the two non-ignored relative file paths, distinct and
relative. -/
theorem archive_members_correct_witness :
    archiveMembers ["skip.log".data] (.dir "data".data
      [.file "a.txt".data [1],
       .dir "sub".data [.file "b.txt".data [2, 3], .file "skip.log".data [9]],
       .file "skip.log".data [4]]) =
      [["a.txt".data], ["sub".data, "b.txt".data]] ∧
    headNotSlash (renderPath ["sub".data, "b.txt".data]) = true := by
  have h := archive_members_correct ["skip.log".data] "data".data
    [.file "a.txt".data [1],
     .dir "sub".data [.file "b.txt".data [2, 3], .file "skip.log".data [9]],
     .file "skip.log".data [4]] (by decide) (by decide)
  have he : archiveMembers ["skip.log".data] (.dir "data".data
      [.file "a.txt".data [1],
       .dir "sub".data [.file "b.txt".data [2, 3], .file "skip.log".data [9]],
       .file "skip.log".data [4]]) =
      [["a.txt".data], ["sub".data, "b.txt".data]] := h.1.trans (by decide)
  refine ⟨he, ?_⟩
  exact h.2.2 ["sub".data, "b.txt".data] (by rw [he]; decide)

/-! ## Directory size (`CalculateDirectorySize`, main.go lines 346-355)

The Go callback is `if !info.IsDir() { size += info.Size() }` — note that it
consults `config.IgnoreFiles` nowhere. -/

/-- `CalculateDirectorySize`: fold of the walk, adding the size of every
non-directory entry. -/
def calculateDirectorySize (root : FsEntry) : Nat :=
  (walkT [] root).foldl (fun acc it => if it.isDir then acc else acc + it.content.length) 0

/-- Sum of the sizes of the non-directory entries of a visit list. -/
def sumItems : List WalkItem → Nat
  | [] => 0
  | it :: l => (if it.isDir then 0 else it.content.length) + sumItems l

theorem sumItems_append (l₁ l₂ : List WalkItem) :
    sumItems (l₁ ++ l₂) = sumItems l₁ + sumItems l₂ := by
  induction l₁ with
  | nil => simp [sumItems]
  | cons it l ih => rw [List.cons_append, sumItems, sumItems, ih]; omega

theorem foldl_sumItems (l : List WalkItem) : ∀ acc : Nat,
    l.foldl (fun acc it => if it.isDir then acc else acc + it.content.length) acc =
      acc + sumItems l := by
  induction l with
  | nil => intro acc; simp [sumItems]
  | cons it l ih =>
    intro acc
    rw [List.foldl_cons, ih, sumItems]
    cases hd : it.isDir
    · simp [hd]
      omega
    · simp [hd]

mutual

/-- Total size of all regular files under one entry (no ignore filtering). -/
def totalSizeT : FsEntry → Nat
  | .file _ c => c.length
  | .dir _ cs => totalSizeL cs

/-- Total size of all regular files under a child list. -/
def totalSizeL : List FsEntry → Nat
  | [] => 0
  | t :: ts => totalSizeT t + totalSizeL ts

end

mutual

theorem sumItems_walkT : ∀ (t : FsEntry) (base : List (List Char)),
    sumItems (walkT base t) = totalSizeT t
  | .file n c, base => by simp [walkT, sumItems, totalSizeT]
  | .dir n cs, base => by
    rw [walkT, sumItems, totalSizeT, sumItems_walkL cs (base ++ [n])]
    simp

theorem sumItems_walkL : ∀ (ts : List FsEntry) (base : List (List Char)),
    sumItems (walkL base ts) = totalSizeL ts
  | [], _ => by simp [walkL, sumItems, totalSizeL]
  | t :: ts, base => by
    rw [walkL, sumItems_append, totalSizeL, sumItems_walkT t base,
      sumItems_walkL ts base]

end

mutual

/-- Modelled from the spec's words, for comparison with the code: "sum of
the sizes of exactly the non-ignored regular files under the tree" — the
size the claim says `CalculateDirectorySize` computes. -/
def specSizeT (ig : List Char → Prop) [DecidablePred ig] : FsEntry → Nat
  | .file n c => if ig n then 0 else c.length
  | .dir _ cs => specSizeL ig cs

/-- Spec-side non-ignored size of a child list. -/
def specSizeL (ig : List Char → Prop) [DecidablePred ig] : List FsEntry → Nat
  | [] => 0
  | t :: ts => specSizeT ig t + specSizeL ig ts

end

/-- Claim C2 counterexample: a tree with a single ignored 3-byte file.
`CalculateDirectorySize` returns 3, while the claim's ignore-respecting sum
(which is what `hashDirectory` and the archive walk operate on) is 0: the
code never consults the ignore set. -/
theorem calculateDirectorySize_ignores_ignore_set :
    calculateDirectorySize (.dir "d".data [.file "skip".data [7, 7, 7]]) ≠
      specSizeT (· ∈ ["skip".data]) (.dir "d".data [.file "skip".data [7, 7, 7]]) := by
  decide

/-- Claim C2 amended: `CalculateDirectorySize` returns the sum of the sizes
of ALL regular files under the tree — directories contribute nothing, but
the ignore set is not consulted, so ignored files are counted (unlike in the
archive walk and the fingerprint walk). -/
theorem calculateDirectorySize_eq_totalSize (root : FsEntry) :
    calculateDirectorySize root = totalSizeT root := by
  rw [calculateDirectorySize, foldl_sumItems, sumItems_walkT]
  omega

/-! ## Content fingerprint (`hashDirectory`, main.go lines 492-529)

The walk collects the (non-ignored, non-directory) file paths in the order
the filesystem enumerates them, sorts the path strings with `sort.Strings`,
and feeds each file's full content, in that sorted order, into one running
SHA-256.  The digest is modelled as the exact byte stream fed to the hash:
two digests are equal whenever the streams are (sound for every equality
the claims state, since SHA-256 is a function of its input stream). -/

/-- Lexicographic byte order on path strings, as `sort.Strings` compares. -/
def pathLe : List Char → List Char → Bool
  | [], _ => true
  | _ :: _, [] => false
  | a :: as, b :: bs =>
    if a < b then true
    else if b < a then false
    else pathLe as bs

theorem pathLe_total : ∀ s t, pathLe s t = true ∨ pathLe t s = true
  | [], t => Or.inl (by cases t <;> rfl)
  | _ :: _, [] => Or.inr rfl
  | a :: as, b :: bs => by
    rcases lt_trichotomy a b with h | h | h
    · exact Or.inl (by simp [pathLe, h])
    · subst h
      rcases pathLe_total as bs with ih | ih
      · exact Or.inl (by simp [pathLe, lt_irrefl, ih])
      · exact Or.inr (by simp [pathLe, lt_irrefl, ih])
    · exact Or.inr (by simp [pathLe, h])

theorem pathLe_trans : ∀ {r s t}, pathLe r s = true → pathLe s t = true →
    pathLe r t = true
  | [], s, t, _, _ => by cases t <;> rfl
  | a :: as, [], t, h1, _ => by cases h1
  | a :: as, b :: bs, [], _, h2 => by cases h2
  | a :: as, b :: bs, c :: cs, h1, h2 => by
    rw [pathLe] at h1 h2 ⊢
    rcases lt_trichotomy a b with hab | hab | hab
    · rcases lt_trichotomy b c with hbc | hbc | hbc
      · simp [lt_trans hab hbc]
      · subst hbc; simp [hab]
      · rcases lt_trichotomy a c with hac | hac | hac
        · simp [hac]
        · exfalso; rw [if_neg (lt_asymm hbc), if_pos hbc] at h2; exact Bool.noConfusion h2
        · exfalso; rw [if_neg (lt_asymm hbc), if_pos hbc] at h2; exact Bool.noConfusion h2
    · subst hab
      rcases lt_trichotomy a c with hac | hac | hac
      · simp [hac]
      · subst hac
        simp only [lt_irrefl, if_false] at h1 h2 ⊢
        exact pathLe_trans h1 h2
      · exfalso
        rw [if_neg (lt_irrefl a), if_neg (lt_irrefl a)] at h1
        rcases lt_trichotomy a c with h | h | h
        · exact absurd h (lt_asymm hac)
        · subst h; exact absurd hac (lt_irrefl a)
        · rw [if_neg (lt_asymm h), if_pos h] at h2; exact Bool.noConfusion h2
    · exfalso
      rw [if_neg (lt_asymm hab), if_pos hab] at h1
      exact Bool.noConfusion h1

theorem pathLe_antisymm : ∀ {s t}, pathLe s t = true → pathLe t s = true → s = t
  | [], [], _, _ => rfl
  | [], _ :: _, _, h2 => by cases h2
  | _ :: _, [], h1, _ => by cases h1
  | a :: as, b :: bs, h1, h2 => by
    rw [pathLe] at h1 h2
    rcases lt_trichotomy a b with hab | hab | hab
    · exfalso; rw [if_neg (lt_asymm hab), if_pos hab] at h2; exact Bool.noConfusion h2
    · subst hab
      rw [if_neg (lt_irrefl a), if_neg (lt_irrefl a)] at h1 h2
      rw [pathLe_antisymm h1 h2]
    · exfalso; rw [if_neg (lt_asymm hab), if_pos hab] at h1; exact Bool.noConfusion h1

/-- The `sort.Strings(files)` comparison, lifted to walk entries keyed by
their rendered path string. -/
def itemLe (a b : WalkItem) : Prop :=
  pathLe (renderPath a.path) (renderPath b.path) = true

instance : DecidableRel itemLe := fun a b =>
  instDecidableEqBool (pathLe (renderPath a.path) (renderPath b.path)) true

instance : IsTotal WalkItem itemLe := ⟨fun _ _ => pathLe_total _ _⟩

instance : IsTrans WalkItem itemLe := ⟨fun _ _ _ h1 h2 => pathLe_trans h1 h2⟩

/-- A SHA-256 digest, abstracted as the byte stream fed to the hash. -/
structure Sha256Digest where
  stream : List Nat
deriving DecidableEq

/-- `hashDirectory` given the walk's visit sequence: filter with the shared
skip test, sort by path string, concatenate the file contents in sorted
order into the running hash. -/
def hashDirectoryModel (ig : List (List Char)) (visit : List WalkItem) : Sha256Digest :=
  ⟨((List.insertionSort itemLe (visit.filter (keepItem ig))).map
      (fun it => it.content)).flatten⟩

/-- `hashDirectory` on a directory tree. -/
def hashDirectoryT (ig : List (List Char)) (root : FsEntry) : Sha256Digest :=
  hashDirectoryModel ig (walkT [] root)

/-- The strict companion of `itemLe` on distinct path strings. -/
def itemLt (a b : WalkItem) : Prop :=
  itemLe a b ∧ renderPath a.path ≠ renderPath b.path

instance : IsAntisymm WalkItem itemLt :=
  ⟨fun _ _ h1 h2 => absurd (pathLe_antisymm h1.1 h2.1) h1.2⟩

/-- A sorted output of the path sort with pairwise-distinct path strings is
sorted under the strict order. -/
theorem sorted_itemLt_of_nodup {l : List WalkItem}
    (hs : List.Pairwise itemLe l)
    (hnd : (l.map (fun it => renderPath it.path)).Nodup) :
    List.Pairwise itemLt l := by
  have hne : List.Pairwise (fun a b : WalkItem =>
      renderPath a.path ≠ renderPath b.path) l :=
    List.pairwise_map.mp hnd
  exact hs.and hne

/-- Claim C8: the digest of `hashDirectory` is independent of the order in
which the filesystem enumerates the files: any permutation of the visit
sequence of the same (path, content) entries — with pairwise distinct path
strings, as a real walk produces — yields the identical digest, because the
file list is sorted before hashing. -/
theorem hashDirectory_order_independent (ig : List (List Char))
    (v₁ v₂ : List WalkItem) (hperm : List.Perm v₁ v₂)
    (hnd : (v₁.map (fun it => renderPath it.path)).Nodup) :
    hashDirectoryModel ig v₁ = hashDirectoryModel ig v₂ := by
  suffices hs : List.insertionSort itemLe (v₁.filter (keepItem ig)) =
      List.insertionSort itemLe (v₂.filter (keepItem ig)) by
    rw [hashDirectoryModel, hashDirectoryModel, hs]
  have hpermf : List.Perm (v₁.filter (keepItem ig)) (v₂.filter (keepItem ig)) :=
    hperm.filter _
  have hp₁ := List.perm_insertionSort itemLe (v₁.filter (keepItem ig))
  have hp₂ := List.perm_insertionSort itemLe (v₂.filter (keepItem ig))
  have hnd₁ : ((List.insertionSort itemLe (v₁.filter (keepItem ig))).map
      (fun it => renderPath it.path)).Nodup := by
    refine (hp₁.map _).nodup_iff.mpr ?_
    exact List.Nodup.sublist ((List.filter_sublist v₁).map _) hnd
  have hnd₂ : ((List.insertionSort itemLe (v₂.filter (keepItem ig))).map
      (fun it => renderPath it.path)).Nodup := by
    refine (hp₂.map _).nodup_iff.mpr ?_
    refine List.Nodup.sublist ((List.filter_sublist v₂).map _) ?_
    exact ((hperm.map _).nodup_iff).mp hnd
  exact List.eq_of_perm_of_sorted
    (hp₁.trans (hpermf.trans hp₂.symm))
    (sorted_itemLt_of_nodup (List.sorted_insertionSort itemLe _) hnd₁)
    (sorted_itemLt_of_nodup (List.sorted_insertionSort itemLe _) hnd₂)

/-- Claim C8 witness: two visit orders of the same two files give the same
digest. -/
theorem hashDirectory_order_independent_witness :
    hashDirectoryModel []
      [⟨["r".data, "a".data], false, [1]⟩, ⟨["r".data, "b".data], false, [2]⟩] =
    hashDirectoryModel []
      [⟨["r".data, "b".data], false, [2]⟩, ⟨["r".data, "a".data], false, [1]⟩] :=
  hashDirectory_order_independent []
    [⟨["r".data, "a".data], false, [1]⟩, ⟨["r".data, "b".data], false, [2]⟩]
    [⟨["r".data, "b".data], false, [2]⟩, ⟨["r".data, "a".data], false, [1]⟩]
    (by decide) (by decide)

/-- Claim C9: the digest depends only on the sequence of file contents taken
in sorted path order — paths are never fed into the hash — so two trees
whose non-ignored files carry the same content sequence under that ordering
hash identically, even if every file name differs. -/
theorem hashDirectory_content_only (ig : List (List Char)) (t₁ t₂ : FsEntry)
    (h : (List.insertionSort itemLe ((walkT [] t₁).filter (keepItem ig))).map
        (fun it => it.content) =
      (List.insertionSort itemLe ((walkT [] t₂).filter (keepItem ig))).map
        (fun it => it.content)) :
    hashDirectoryT ig t₁ = hashDirectoryT ig t₂ := by
  rw [hashDirectoryT, hashDirectoryT, hashDirectoryModel, hashDirectoryModel, h]

/-- Claim C9 witness: two trees with entirely different file names but the
same content sequence in sorted path order hash identically — the
fingerprint cannot detect such a rename. -/
theorem hashDirectory_content_only_witness :
    hashDirectoryT [] (.dir "r".data [.file "a".data [1], .file "b".data [2]]) =
    hashDirectoryT [] (.dir "r".data [.file "x".data [1], .file "y".data [2]]) :=
  hashDirectory_content_only []
    (.dir "r".data [.file "a".data [1], .file "b".data [2]])
    (.dir "r".data [.file "x".data [1], .file "y".data [2]])
    (by decide)

/-! ## The streaming pipeline (`createTarGzToS3`, main.go lines 357-446)

The walk goroutine writes tar members into `tw → gw → pw`; the uploader
reads from the pipe `pr`.  The pipe is modelled by the stream of members the
goroutine wrote before returning, plus the error state the pipe was closed
with.  The decisive code is in the goroutine (lines 380-433): on a walk
error it runs `if err != nil { return }` — discarding the error — and the
deferred `tw.Close()`, `gw.Close()`, `pw.Close()` still execute.  Since the
close is `pw.Close()` and not `pw.CloseWithError(err)`, the reader always
observes a clean EOF.  A network failure of the upload itself is the only
error the call can return. -/

structure PipeState where
  stream : List (List (List Char))
  closeErr : Option (List Char)

/-- The producer goroutine's effect on the pipe: whether or not the walk
failed after emitting `emitted` members, the deferred closes leave the pipe
cleanly closed (`pw.Close()`, never `pw.CloseWithError`). -/
def producerClose (emitted : List (List (List Char))) (walkErr : Option (List Char)) :
    PipeState :=
  match walkErr with
  | some _ => { stream := emitted, closeErr := none }
  | none => { stream := emitted, closeErr := none }

/-- `uploader.Upload(pr)`: fails iff the network transfer fails or the pipe
was closed with an error; otherwise consumes the stream to EOF. -/
def uploadFromPipe (p : PipeState) (netErr : Option (List Char)) :
    Except (List Char) (List (List (List Char))) :=
  match netErr with
  | some e => .error e
  | none =>
    match p.closeErr with
    | some e => .error e
    | none => .ok p.stream

/-- `createTarGzToS3`: the goroutine feeding the uploader through the pipe;
the call's result, carrying the stream the uploader stored. -/
def createTarGzToS3Model (emitted : List (List (List Char)))
    (walkErr netErr : Option (List Char)) :
    Except (List Char) (List (List (List Char))) :=
  uploadFromPipe (producerClose emitted walkErr) netErr

/-- Claim C1 is violated by the code: whenever the network upload itself
succeeds, `createTarGzToS3` returns success — even when the walk failed
(`walkErr = some e`) after emitting only a truncated prefix of the archive.
The walk error is absorbed by `if err != nil { return }` in the goroutine
and the clean `pw.Close()`. -/
theorem createTarGz_walk_error_absorbed (emitted : List (List (List Char)))
    (walkErr : Option (List Char)) :
    createTarGzToS3Model emitted walkErr none = .ok emitted := by
  cases walkErr <;> rfl

/-! ## The orchestrator (`runBackupProcess`, main.go lines 605-639)

Stage outcomes (each `Option` error) stand for the results of the external
calls; the model returns the sequence of stages invoked together with the
function's result.  `pruneOldSnapshots()` is invoked first with its result
ignored, capture and metadata always run once stopping succeeded, `status`
is only ever downgraded to error, and the final return reports the error
status. -/

inductive RunAction where
  | pruneOld
  | stopC
  | createTarGz
  | createMetadata
  | startC
deriving DecidableEq

structure StageOutcomes where
  stopErr : Option (List Char)
  tarErr : Option (List Char)
  metaErr : Option (List Char)
  startErr : Option (List Char)

/-- `runBackupProcess`: stop → archive → metadata → start, with early return
only on stop/start failures, and a final error when any capture stage
failed. -/
def runBackupProcess (o : StageOutcomes) : List RunAction × Except (List Char) Unit :=
  match o.stopErr with
  | some e =>
    ([.pruneOld, .stopC], .error ("error stopping containers: ".data ++ e))
  | none =>
    let statusIsError := o.tarErr.isSome || o.metaErr.isSome
    match o.startErr with
    | some e =>
      ([.pruneOld, .stopC, .createTarGz, .createMetadata, .startC],
        .error ("error starting containers: ".data ++ e))
    | none =>
      if statusIsError then
        ([.pruneOld, .stopC, .createTarGz, .createMetadata, .startC],
          .error "runBackupProcess finished with errors".data)
      else
        ([.pruneOld, .stopC, .createTarGz, .createMetadata, .startC], .ok ())

/-- Claim C5: when pausing succeeded but the archive or the metadata stage
failed, the container start is still invoked and the run returns an error,
never success. -/
theorem resume_after_capture_failure (o : StageOutcomes)
    (hstop : o.stopErr = none)
    (hfail : o.tarErr ≠ none ∨ o.metaErr ≠ none) :
    RunAction.startC ∈ (runBackupProcess o).1 ∧
    ∃ e, (runBackupProcess o).2 = .error e := by
  have hsm : (o.tarErr.isSome || o.metaErr.isSome) = true := by
    rcases hfail with h | h
    · cases htar : o.tarErr with
      | none => exact absurd htar h
      | some e => simp [htar]
    · cases hmeta : o.metaErr with
      | none => exact absurd hmeta h
      | some e => simp [hmeta]
  rw [runBackupProcess, hstop]
  cases hstart : o.startErr with
  | some e =>
    dsimp only
    exact ⟨by decide, "error starting containers: ".data ++ e, rfl⟩
  | none =>
    dsimp only
    rw [if_pos hsm]
    exact ⟨by decide, "runBackupProcess finished with errors".data, rfl⟩

/-- Claim C5 witness: archive upload fails, stop and start succeed — start
is invoked and the run errors. -/
theorem resume_after_capture_failure_witness :
    RunAction.startC ∈ (runBackupProcess ⟨none, some "boom".data, none, none⟩).1 ∧
    ∃ e, (runBackupProcess ⟨none, some "boom".data, none, none⟩).2 = .error e :=
  resume_after_capture_failure ⟨none, some "boom".data, none, none⟩ rfl
    (Or.inl (by simp))

/-- Claim C6: when pausing fails the run returns the stop error at once —
the archive stage, the metadata stage and the container start are never
invoked. -/
theorem pause_failure_stops_run (o : StageOutcomes) (e : List Char)
    (hstop : o.stopErr = some e) :
    (runBackupProcess o).2 = .error ("error stopping containers: ".data ++ e) ∧
    RunAction.createTarGz ∉ (runBackupProcess o).1 ∧
    RunAction.createMetadata ∉ (runBackupProcess o).1 ∧
    RunAction.startC ∉ (runBackupProcess o).1 := by
  rw [runBackupProcess, hstop]
  dsimp only
  exact ⟨rfl, by decide, by decide, by decide⟩

/-- Claim C6 witness: stopping fails concretely; nothing past the stop is
invoked and the error is returned. -/
theorem pause_failure_stops_run_witness :
    (runBackupProcess ⟨some "down".data, none, none, none⟩).2 =
      .error ("error stopping containers: ".data ++ "down".data) ∧
    RunAction.createTarGz ∉ (runBackupProcess ⟨some "down".data, none, none, none⟩).1 ∧
    RunAction.createMetadata ∉ (runBackupProcess ⟨some "down".data, none, none, none⟩).1 ∧
    RunAction.startC ∉ (runBackupProcess ⟨some "down".data, none, none, none⟩).1 :=
  pause_failure_stops_run ⟨some "down".data, none, none, none⟩ "down".data rfl
